import Mathlib

/-!
Verification development for the modpack resolution and packaging pipeline
(`scripts/resolve_manifests.py` and `scripts/build_mrpack.py`).

The Python source is shallowly embedded: JSON dictionaries coming back from
the registry are modelled as structures whose `Option` fields record
absent-or-wrongly-typed JSON values, fallible code returns `Except String`,
and the file-system effects of the CLI entry point are modelled as an
explicit list of write events.  External collaborators identified by the
design document (the registry HTTP transport, the TOML/JSON deserialisers,
the zip writer, and the `datetime` ISO-8601 parser) are treated as given:
the registry client is a function parameter, and a parsed `date_published`
timestamp is represented by its value on the (linearly ordered) time axis
as an integer.
-/

namespace Modpack

/-- Content hashes of a distributable file.  A field is `none` when the
corresponding key is absent from the JSON object (or holds a non-string,
which the source treats identically when reading hashes). -/
structure Hashes where
  sha1 : Option String
  sha512 : Option String
deriving Repr, DecidableEq, Inhabited

/-- One file object inside a registry version response.  `none` models an
absent or non-string / non-integer JSON value, which the source code
rejects with the same branch as an absent one. -/
structure FileObj where
  filename : Option String
  url : Option String
  size : Option Int
  hashes : Option Hashes
  primary : Bool
deriving Repr, DecidableEq, Inhabited

/-- A version object returned by the registry (spec section 4.3).
`game_versions`/`loaders` are `none` when the key is absent or not a JSON
list; `files` is `none` when not a list, and its elements are `none` when
the list item is not a JSON object.  `date_published` is the parsed
ISO-8601 timestamp, modelled by its position on the time axis (the
`datetime` parser is a given deserialiser); `none` when the key is
absent. -/
structure Version where
  version_number : Option String
  game_versions : Option (List String)
  loaders : Option (List String)
  date_published : Option Int
  files : Option (List (Option FileObj))
deriving Repr, DecidableEq, Inhabited

/-- A resolved lock entry, as built by `build_lock_entry` and persisted in
a lock manifest. -/
structure LockEntry where
  filename : String
  side : String
  downloads : List String
  hashes : Hashes
  fileSize : Int
deriving Repr, DecidableEq, Inhabited

/-- One declared project reference after `collect_entries` validation:
a normalized url, a side, and an optional pinned version (a non-empty
string when present, which `collect_entries` enforces). -/
structure EntryRef where
  url : String
  side : String
  name : Option String
  version : Option String
deriving Repr, DecidableEq, Inhabited

/-- `VALID_SIDES` from the source. -/
def VALID_SIDES : List String := ["both", "client", "server"]

/-! ## URL parsing

The source calls `urllib.parse.urlparse` and uses only the `scheme`,
`netloc` and `path` components.  We embed the part of `urlparse`
(CPython 3.11) exercised by those accesses: leading C0-control/space
stripping, removal of tab/CR/LF, scheme extraction (lowercased, first
character alphabetic, remaining characters in the scheme alphabet),
netloc extraction after `//`, query/fragment stripping, and - because
`urlparse` (unlike `urlsplit`) splits `;params` off the last path segment
for schemes that use parameters - the params split. -/

/-- The three components of `urlparse` used by the source. -/
structure UrlParts where
  scheme : String
  netloc : String
  path : String
deriving Repr, DecidableEq, Inhabited

/-- Characters allowed in a URL scheme after the first (CPython
`scheme_chars`). -/
def schemeChar (c : Char) : Bool :=
  c.isAlpha || c.isDigit || c = '+' || c = '-' || c = '.'

/-- C0 control characters and space, stripped from the front of a URL by
`urlsplit`. -/
def isC0OrSpace (c : Char) : Bool := c.toNat ≤ 32

/-- Tab, CR and LF are removed from anywhere in the URL by `urlsplit`. -/
def isUnsafeUrlChar (c : Char) : Bool := c = '\t' || c = '\r' || c = '\n'

/-- Split a character list at the first occurrence of `d`:
`breakAtFirst d l = some (a, b)` when `l = a ++ d :: b` with `d ∉ a`. -/
def breakAtFirst (d : Char) : List Char → Option (List Char × List Char)
  | [] => none
  | c :: rest =>
    if c = d then some ([], rest)
    else (breakAtFirst d rest).map (fun p => (c :: p.1, p.2))

/-- Prefix of a character list before the first occurrence of any stop
character. -/
def takeUntilChars (stops : List Char) : List Char → List Char
  | [] => []
  | c :: rest => if stops.contains c then [] else c :: takeUntilChars stops rest

/-- Suffix of a character list from the first occurrence of any stop
character (inclusive). -/
def dropUntilChars (stops : List Char) : List Char → List Char
  | [] => []
  | c :: rest => if stops.contains c then c :: rest else dropUntilChars stops rest

/-- Schemes for which `urlparse` splits `;params` off the last path
segment (CPython `uses_params`). -/
def usesParams : List String :=
  ["", "ftp", "hdl", "prospero", "http", "imap", "https", "shttp", "rtsp",
   "rtspu", "sip", "sips", "mms", "sftp", "tel"]

/-- CPython `_splitparams`: if the path contains a `/`, cut at the first
`;` that appears at or after the last `/`; otherwise cut at the first
`;`.  Only called when the path contains a `;`. -/
def splitparams (path : List Char) : List Char :=
  if path.contains '/' then
    match breakAtFirst '/' path.reverse with
    | some (revTail, revInit) =>
      let tail := revTail.reverse
      if tail.contains ';' then
        match breakAtFirst ';' tail with
        | some (pre, _) => revInit.reverse ++ '/' :: pre
        | none => path
      else path
    | none => path
  else
    match breakAtFirst ';' path with
    | some (pre, _) => pre
    | none => path

/-- The sanitisation `urlsplit` performs first: strip leading
C0-control/space characters, remove every tab, CR and LF. -/
def sanitizeUrl (url : String) : List Char :=
  (url.toList.dropWhile isC0OrSpace).filter (fun c => !isUnsafeUrlChar c)

/-- Scheme extraction of `urlsplit`: split at the first `:` when the
prefix is a well-formed scheme (non-empty, alphabetic first character,
scheme alphabet), lowercasing it; otherwise no scheme. -/
def splitScheme (cs : List Char) : List Char × List Char :=
  match breakAtFirst ':' cs with
  | some (pre, post) =>
    if pre ≠ [] ∧ pre.head?.all (fun c => c.isAlpha) ∧ pre.all schemeChar then
      (pre.map Char.toLower, post)
    else ([], cs)
  | none => ([], cs)

/-- Netloc extraction of `urlsplit`: after a leading `//`, the netloc
runs until the first `/`, `?` or `#`. -/
def splitNetloc (cs : List Char) : List Char × List Char :=
  match cs with
  | a :: b :: r2 =>
    if a = '/' ∧ b = '/' then
      (takeUntilChars ['/', '?', '#'] r2, dropUntilChars ['/', '?', '#'] r2)
    else ([], cs)
  | _ => ([], cs)

/-- The path component: strip fragment and query, then - for schemes
using parameters - split `;params` off the last segment. -/
def parsePath (scheme : List Char) (afterNetloc : List Char) : List Char :=
  let path0 := takeUntilChars ['#', '?'] afterNetloc
  if usesParams.contains (String.mk scheme) ∧ path0.contains ';' then
    splitparams path0
  else path0

/-- The embedding of `urllib.parse.urlparse` restricted to the components
the source reads. -/
def urlparse (url : String) : UrlParts :=
  let cs := sanitizeUrl url
  let schemeRest := splitScheme cs
  let netlocRest := splitNetloc schemeRest.2
  { scheme := String.mk schemeRest.1
    netloc := String.mk netlocRest.1
    path := String.mk (parsePath schemeRest.1 netlocRest.2) }

/-- Python `str.split("/")` for a single-character separator. -/
def splitOnSlash : List Char → List (List Char)
  | [] => [[]]
  | c :: rest =>
    if c = '/' then [] :: splitOnSlash rest
    else
      match splitOnSlash rest with
      | seg :: segs => (c :: seg) :: segs
      | [] => [[c]]

/-- The non-empty path segments: `[part for part in path.split("/") if part]`. -/
def pathParts (path : String) : List (List Char) :=
  (splitOnSlash path.toList).filter (fun seg => seg ≠ [])

/-- `normalize_project_url` from `resolve_manifests.py`. -/
def normalize_project_url (url : String) : Except String String :=
  let parsed := urlparse url
  if ¬ (parsed.scheme = "http" ∨ parsed.scheme = "https") then
    .error ("Invalid project URL: " ++ url)
  else if ¬ (parsed.netloc = "modrinth.com" ∨ parsed.netloc = "www.modrinth.com") then
    .error ("Unsupported host in URL: " ++ url)
  else
    match pathParts parsed.path with
    | [p0, p1] =>
      if p0 = "project".toList then
        .ok ("https://modrinth.com/project/" ++ String.mk p1)
      else .error ("Invalid Modrinth project URL path: " ++ url)
    | _ => .error ("Invalid Modrinth project URL path: " ++ url)

/-- `parse_project_id` from `resolve_manifests.py`. -/
def parse_project_id (url : String) : Except String String :=
  let parsed := urlparse url
  match pathParts parsed.path with
  | [p0, p1] =>
    if p0 = "project".toList then .ok (String.mk p1)
    else .error ("Invalid Modrinth project URL path: " ++ url)
  | _ => .error ("Invalid Modrinth project URL path: " ++ url)

/-! ## Version filtering and selection -/

/-- `filter_versions` from `resolve_manifests.py`: a version is skipped
when it declares a non-empty `game_versions` list not containing the
requested game version, or - when a loader is required - when its
`loaders` value is not a list containing that loader. -/
def filter_versions (versions : List Version) (minecraft : String)
    (loader : Option String) : List Version :=
  versions.filter fun version =>
    (match version.game_versions with
     | some gvs => !(!gvs.isEmpty && !gvs.contains minecraft)
     | none => true)
    &&
    (match loader with
     | none => true
     | some ld =>
       match version.loaders with
       | some ls => ls.contains ld
       | none => false)

/-- `version_sort_key`: the parsed `date_published`, defaulting to the
epoch (`"1970-01-01T00:00:00Z"`, position `0` on the modelled time
axis) when the field is absent. -/
def version_sort_key (v : Version) : Int :=
  v.date_published.getD 0

/-- The comparison handed to the (stable) sort in `select_version`:
`sort(key=version_sort_key, reverse=True)` orders by descending key and
keeps input order on ties.  Python's stable sort is modelled by the
stable `List.insertionSort`, which computes the same result as any
stable sort under this total preorder. -/
def descR (a b : Version) : Prop :=
  version_sort_key b ≤ version_sort_key a

instance : DecidableRel descR := fun a b =>
  inferInstanceAs (Decidable (version_sort_key b ≤ version_sort_key a))

instance : IsTotal Version descR :=
  ⟨fun a b => (Int.le_total (version_sort_key b) (version_sort_key a)).imp id id⟩

instance : IsTrans Version descR :=
  ⟨fun _ _ _ h1 h2 => le_trans h2 h1⟩

/-- `select_version` from `resolve_manifests.py`.  The pin is consulted
through Python truthiness (`if version_number:`), so an absent pin and an
empty-string pin take the unpinned branch. -/
def select_version (versions : List Version) (version_number : Option String) :
    Except String Version :=
  match versions with
  | [] => .error "No compatible versions found"
  | v0 :: vrest =>
    if version_number.getD "" ≠ "" then
      match (v0 :: vrest).filter (fun v => v.version_number == some (version_number.getD "")) with
      | [] => .error ("No compatible version_number=\x27" ++ version_number.getD "" ++ "\x27 found")
      | m0 :: ms =>
        let sortedM :=
          if (m0 :: ms).length > 1 then (m0 :: ms).insertionSort descR else m0 :: ms
        .ok (sortedM.headD m0)
    else
      .ok (((v0 :: vrest).insertionSort descR).headD v0)

/-- `select_file` from `resolve_manifests.py`: prefer a file object whose
`primary` flag is `True`; otherwise take the first list item, which must
be an object. -/
def select_file (version_data : Version) : Except String FileObj :=
  match version_data.files with
  | none => .error "Selected Modrinth version has no files"
  | some files =>
    if files.isEmpty then .error "Selected Modrinth version has no files"
    else
      match files.filter (fun f => f.any (fun fo => fo.primary)) with
      | some fo :: _ => .ok fo
      | _ =>
        match files with
        | some fo :: _ => .ok fo
        | none :: _ => .error "Invalid file object in version response"
        | [] => .error "Selected Modrinth version has no files"

/-- `build_lock_entry` from `resolve_manifests.py`.  The `Option.getD`
defaults realise the combined absent/non-string (respectively
absent/non-integer) rejection tests of the source. -/
def build_lock_entry (file_obj : FileObj) (side : String) :
    Except String LockEntry :=
  if file_obj.filename.getD "" = "" then
    .error "Missing filename in Modrinth response"
  else if file_obj.url.getD "" = "" then
    .error "Missing download URL in Modrinth response"
  else if file_obj.size.getD 0 ≤ 0 then
    .error "Missing/invalid file size in Modrinth response"
  else
    match file_obj.hashes with
    | none => .error "Missing hashes in Modrinth response"
    | some hashes =>
      let sha1 := match hashes.sha1 with
        | some s => if s ≠ "" then some s else none
        | none => none
      let sha512 := match hashes.sha512 with
        | some s => if s ≠ "" then some s else none
        | none => none
      if sha1 = none ∧ sha512 = none then
        .error "No sha1/sha512 hash provided by Modrinth"
      else
        .ok { filename := file_obj.filename.getD ""
              side := side
              downloads := [file_obj.url.getD ""]
              hashes := { sha1 := sha1, sha512 := sha512 }
              fileSize := file_obj.size.getD 0 }

/-! ## Category resolution

The registry client (`fetch_versions`: the HTTP request, the
list-shaped-response check and the dropping of non-object items) is the
collaborator boundary of spec section 4.3; it is passed in as a function
returning either the translated `RegistryError` message or the list of
version objects. -/

/-- The duplicate-collision error message raised by `resolve_entries`. -/
def dupMsg (filename label : String) : String :=
  "Duplicate resolved filename \x27" ++ filename ++ "\x27 in " ++ label ++
    "; this is ambiguous"

/-- The body of the `resolve_entries` loop for one reference: project id
extraction, registry query, compatibility filtering, version selection,
file selection and lock-entry construction. -/
def resolve_one (fetch : String → Except String (List Version)) (minecraft : String)
    (loaderOpt : Option String) (entry : EntryRef) : Except String LockEntry := do
  let project_id ← parse_project_id entry.url
  let versions ← fetch project_id
  let filtered := filter_versions versions minecraft loaderOpt
  let selected ← select_version filtered entry.version
  let file ← select_file selected
  build_lock_entry file entry.side

/-- The `resolve_entries` iteration: entries are processed in declaration
order, a resolved filename already in `seen` aborts with the duplicate
message, every other error propagates unchanged, and the per-entry
results are accumulated in order. -/
def resolve_entries_loop (fetch : String → Except String (List Version))
    (minecraft : String) (loaderOpt : Option String) (label : String) :
    List EntryRef → List String → Except String (List LockEntry)
  | [], _ => .ok []
  | entry :: rest, seen =>
    match resolve_one fetch minecraft loaderOpt entry with
    | .error e => .error e
    | .ok lock_entry =>
      if seen.contains lock_entry.filename then
        .error (dupMsg lock_entry.filename label)
      else
        match resolve_entries_loop fetch minecraft loaderOpt label rest
          (lock_entry.filename :: seen) with
        | .error e => .error e
        | .ok tail => .ok (lock_entry :: tail)

/-- Python `str.lower` applied to a filename, modelled character by
character with the ASCII lowering `Char.toLower` (registry filenames are
ASCII). -/
def lowerChars (s : String) : List Char := s.toList.map Char.toLower

/-- Code-point lexicographic comparison of character lists: the order
Python uses on the `str.lower` sort keys. -/
def charsLe : List Char → List Char → Bool
  | [], _ => true
  | _ :: _, [] => false
  | a :: as, b :: bs =>
    if a.toNat < b.toNat then true
    else if b.toNat < a.toNat then false
    else charsLe as bs

/-- The comparison handed to the final (stable) sort of `resolve_entries`:
ascending by lower-cased filename (Python's stable sort is modelled by
the stable `List.insertionSort`). -/
def ciR (a b : LockEntry) : Prop :=
  charsLe (lowerChars a.filename) (lowerChars b.filename) = true

instance : DecidableRel ciR := fun a b =>
  inferInstanceAs
    (Decidable (charsLe (lowerChars a.filename) (lowerChars b.filename) = true))

/-- `resolve_entries` from `resolve_manifests.py`: run the loop with an
empty `seen` set and sort the result case-insensitively by filename.
The loader requirement is materialised exactly as in the source
(`loader if require_loader else None`). -/
def resolve_entries (fetch : String → Except String (List Version))
    (entries : List EntryRef) (minecraft loader : String) (label : String)
    (require_loader : Bool) : Except String (List LockEntry) :=
  match resolve_entries_loop fetch minecraft
    (if require_loader then some loader else none) label entries [] with
  | .error e => .error e
  | .ok resolved => .ok (resolved.insertionSort ciR)

/-! ## Packaging side (`build_mrpack.py`) -/

/-- The per-file environment requirement pair. -/
structure Env where
  client : String
  server : String
deriving Repr, DecidableEq, Inhabited

/-- `env_for_side` from `build_mrpack.py`. -/
def env_for_side (side : String) : Env :=
  if side = "client" then { client := "required", server := "unsupported" }
  else if side = "server" then { client := "unsupported", server := "required" }
  else { client := "required", server := "required" }

/-- One element of the `files` array of the emitted index document. -/
structure PackFile where
  path : String
  hashes : Hashes
  downloads : List String
  fileSize : Int
  env : Env
deriving Repr, DecidableEq, Inhabited

/-- `build_files` from `build_mrpack.py`: keep an entry when its side is
`both` or equals the target side, and tag it with the environment pair
computed from its own declared side. -/
def build_files : List LockEntry → String → String → List PackFile
  | [], _, _ => []
  | entry :: rest, side, path_pre =>
    if entry.side ≠ "both" ∧ entry.side ≠ side then
      build_files rest side path_pre
    else
      { path := path_pre ++ "/" ++ entry.filename
        hashes := entry.hashes
        downloads := entry.downloads
        fileSize := entry.fileSize
        env := env_for_side entry.side } :: build_files rest side path_pre

/-- The value-level checks of `validate_entries` from `build_mrpack.py`
on one manifest entry (the structural `isinstance` checks are realised by
the `LockEntry` type, the given JSON deserialiser having produced it):
non-empty filename, valid side, non-empty downloads list of non-empty
URLs, at least one of the sha1/sha512 hash keys, and a positive size. -/
def validate_entry (entry : LockEntry) : Bool :=
  (entry.filename ≠ "" : Bool)
    && VALID_SIDES.contains entry.side
    && (!entry.downloads.isEmpty && entry.downloads.all (fun u => u ≠ ""))
    && (entry.hashes.sha1.isSome || entry.hashes.sha512.isSome)
    && decide (0 < entry.fileSize)

/-! ## The resolve CLI entry point (`main` of `resolve_manifests.py`)

`main` is embedded from the point where the declarative config has been
parsed and validated (`read_toml`, `parse_template` and `collect_entries`
are upstream of every claim about the run behaviour; the TOML
deserialiser is a given collaborator).  File-system effects are modelled
as an explicit trace of write events produced in program order, and an
uncaught Python exception is the `some`-error component: writes already
performed stay in the trace, nothing after the raise is performed. -/

/-- The rendered metadata template (output of `parse_template`). -/
structure Template where
  name : String
  summary : String
  versionId : String
  minecraft : String
  loader : String
  loader_version : String
deriving Repr, DecidableEq, Inhabited

/-- Data written to one output file. -/
inductive OutData where
  | template (t : Template)
  | lock (entries : List LockEntry)
deriving Repr, DecidableEq

/-- The CLI arguments of `resolve_manifests.py` relevant to the run
behaviour. -/
structure ResolveArgs where
  template_out : String
  mods_lock : String
  resource_packs_lock : String
  shader_packs_lock : String
  target : String
  check : Bool
deriving Repr, DecidableEq, Inhabited

/-- The requested targets: every output for `all`, otherwise the single
named one. -/
def targetsFor (target : String) : List String :=
  if target = "all" then ["template", "mods", "resourcepacks", "shaderpacks"]
  else [target]

/-- The lock path the source associates with a category target. -/
def lockPath (args : ResolveArgs) (target : String) : String :=
  if target = "mods" then args.mods_lock
  else if target = "resourcepacks" then args.resource_packs_lock
  else args.shader_packs_lock

/-- The declared references of a category target. -/
def entriesFor (mods rp sp : List EntryRef) (target : String) : List EntryRef :=
  if target = "mods" then mods
  else if target = "resourcepacks" then rp
  else sp

/-- The `resolve_entries` call `main` makes for one category target: the
category entries, the category name as label, and the loader requirement
`require_loader=(target == "mods")`. -/
def resolveTarget (fetch : String → Except String (List Version))
    (minecraft loader : String) (mods rp sp : List EntryRef) (t : String) :
    Except String (List LockEntry) :=
  resolve_entries fetch (entriesFor mods rp sp t) minecraft loader t (t == "mods")

/-- The category loop of `main`: iterate the fixed order
`mods, resourcepacks, shaderpacks`, skip targets not requested, resolve,
and either record the lock write or (in check mode) record nothing.  An
error aborts the loop, keeping the writes performed so far. -/
def runCats (fetch : String → Except String (List Version)) (minecraft loader : String)
    (mods rp sp : List EntryRef) (args : ResolveArgs) :
    List String → List (String × List LockEntry) × Option String
  | [] => ([], none)
  | t :: rest =>
    if (targetsFor args.target).contains t then
      match resolveTarget fetch minecraft loader mods rp sp t with
      | .error e => ([], some e)
      | .ok resolved =>
        let tailResult := runCats fetch minecraft loader mods rp sp args rest
        if args.check then tailResult
        else ((lockPath args t, resolved) :: tailResult.1, tailResult.2)
    else runCats fetch minecraft loader mods rp sp args rest

/-- `main` of `resolve_manifests.py` after config parsing: the template
write (skipped in check mode), then the category loop.  Returns the
write trace in program order and the uncaught error, if any. -/
def runMain (fetch : String → Except String (List Version)) (template : Template)
    (minecraft loader : String) (mods rp sp : List EntryRef) (args : ResolveArgs) :
    List (String × OutData) × Option String :=
  let templateWrites :=
    if (targetsFor args.target).contains "template" ∧ ¬ args.check then
      [(args.template_out, OutData.template template)]
    else []
  let catResult := runCats fetch minecraft loader mods rp sp args
    ["mods", "resourcepacks", "shaderpacks"]
  (templateWrites ++ catResult.1.map (fun w => (w.1, OutData.lock w.2)), catResult.2)

def charsLe_total : ∀ (xs ys : List Char), (charsLe xs ys || charsLe ys xs) = true := by
  intro xs
  induction xs with
  | nil => intro ys; simp [charsLe]
  | cons a as ih =>
    intro ys
    cases ys with
    | nil => simp [charsLe]
    | cons b bs =>
      by_cases h1 : a.toNat < b.toNat
      · simp [charsLe, h1]
      · by_cases h2 : b.toNat < a.toNat
        · simp [charsLe, h1, h2]
        · simpa [charsLe, h1, h2] using ih bs

def charsLe_trans : ∀ (xs ys zs : List Char),
    charsLe xs ys = true → charsLe ys zs = true → charsLe xs zs = true := by
  intro xs
  induction xs with
  | nil => intro ys zs h1 h2; simp [charsLe]
  | cons a as ih =>
    intro ys zs h1 h2
    cases ys with
    | nil => simp [charsLe] at h1
    | cons b bs =>
      cases zs with
      | nil => simp [charsLe] at h2
      | cons c cs =>
        simp only [charsLe] at h1 h2 ⊢
        split_ifs at h1 h2 ⊢ with hab hba hbc hcb hac hca <;>
          first
            | rfl
            | omega
            | (exact ih bs cs h1 h2)

instance : IsTrans LockEntry ciR :=
  ⟨fun _ _ _ h1 h2 => charsLe_trans _ _ _ h1 h2⟩

instance : IsTotal LockEntry ciR :=
  ⟨fun a b => by
    have h := charsLe_total (lowerChars a.filename) (lowerChars b.filename)
    rcases Bool.or_eq_true_iff.mp h with h2 | h2
    · exact Or.inl h2
    · exact Or.inr h2⟩

/-- Prefix test on character lists. -/
def startsWithChars : List Char → List Char → Bool
  | [], _ => true
  | _ :: _, [] => false
  | a :: as, b :: bs => a == b && startsWithChars as bs

/-- Does some suffix of the haystack start with the needle? -/
def suffixesContain (needle : List Char) : List Char → Bool
  | [] => startsWithChars needle []
  | c :: rest => startsWithChars needle (c :: rest) || suffixesContain needle rest

/-- Substring containment: `strContains s t` holds when `t` occurs
contiguously inside `s` (used to express that an error message names a
piece of input). -/
def strContains (s t : String) : Bool :=
  suffixesContain t.toList s.toList

/-! ## Concrete registry data used to instantiate the claims -/

/-- A registry file object with the given filename and download URL. -/
def mkFile (name url : String) : FileObj :=
  { filename := some name, url := some url, size := some 10,
    hashes := some { sha1 := some "aa", sha512 := none }, primary := true }

/-- A registry version holding exactly one primary file. -/
def mkVersion (name url : String) : Version :=
  { version_number := some "1.0", game_versions := some ["1.20.1"],
    loaders := some ["fabric"], date_published := some 1,
    files := some [some (mkFile name url)] }

/-- A small fixed registry: projects `aaa` and `bbb` both resolve to a
file named `same.jar`; `ccc` and `ddd` resolve to `A.jar` and `a.jar`. -/
def sampleFetch : String → Except String (List Version) := fun pid =>
  if pid = "aaa" then .ok [mkVersion "same.jar" "https://cdn.example/a.jar"]
  else if pid = "bbb" then .ok [mkVersion "same.jar" "https://cdn.example/b.jar"]
  else if pid = "ccc" then .ok [mkVersion "A.jar" "https://cdn.example/c.jar"]
  else if pid = "ddd" then .ok [mkVersion "a.jar" "https://cdn.example/d.jar"]
  else .ok []

/-- Declared references against `sampleFetch`. -/
def refA : EntryRef :=
  { url := "https://modrinth.com/project/aaa", side := "both", name := none, version := none }

/-- Second reference colliding with `refA` on the resolved filename. -/
def refB : EntryRef :=
  { url := "https://modrinth.com/project/bbb", side := "both", name := none, version := none }

/-- Reference resolving to `A.jar`. -/
def refC : EntryRef :=
  { url := "https://modrinth.com/project/ccc", side := "both", name := none, version := none }

/-- Reference resolving to `a.jar`, case-insensitively equal to `A.jar`. -/
def refD : EntryRef :=
  { url := "https://modrinth.com/project/ddd", side := "both", name := none, version := none }

/-- The lock entry `refA` resolves to. -/
def lockA : LockEntry :=
  { filename := "same.jar", side := "both",
    downloads := ["https://cdn.example/a.jar"],
    hashes := { sha1 := some "aa", sha512 := none }, fileSize := 10 }

/-- The lock entry `refB` resolves to: the same filename as `lockA`. -/
def lockB : LockEntry :=
  { filename := "same.jar", side := "both",
    downloads := ["https://cdn.example/b.jar"],
    hashes := { sha1 := some "aa", sha512 := none }, fileSize := 10 }

/-- The lock entry `refC` resolves to. -/
def lockC : LockEntry :=
  { filename := "A.jar", side := "both",
    downloads := ["https://cdn.example/c.jar"],
    hashes := { sha1 := some "aa", sha512 := none }, fileSize := 10 }

/-- The lock entry `refD` resolves to. -/
def lockD : LockEntry :=
  { filename := "a.jar", side := "both",
    downloads := ["https://cdn.example/d.jar"],
    hashes := { sha1 := some "aa", sha512 := none }, fileSize := 10 }

/-- A concrete run of C2: a version list containing a pinned match
resolves successfully. -/
def c2SampleVersion : Version :=
  { version_number := some "1.0", game_versions := some ["1.20.1"],
    loaders := some ["fabric"], date_published := some 5,
    files := some [] }

/-- A lock entry used to instantiate the packaging claims. -/
def c1Sample : LockEntry :=
  { filename := "sodium.jar", side := "both",
    downloads := ["https://cdn.example/sodium.jar"],
    hashes := { sha1 := none, sha512 := some "abc" }, fileSize := 12345 }

/-- A rendered template used to instantiate the run claims. -/
def sampleTemplate : Template :=
  { name := "CHUJ", summary := "S", versionId := "v1", minecraft := "1.20.1",
    loader := "fabric", loader_version := "0.1" }

/-- The default CLI arguments of `resolve_manifests.py`. -/
def sampleArgs : ResolveArgs :=
  { template_out := "modpack/pack.template.json",
    mods_lock := "modpack/mods.lock.json",
    resource_packs_lock := "modpack/resource-packs.lock.json",
    shader_packs_lock := "modpack/shader-packs.lock.json",
    target := "all", check := false }

/-- A reference whose project has no versions in `sampleFetch`, so its
resolution fails with the no-compatible-versions error. -/
def refE : EntryRef :=
  { url := "https://modrinth.com/project/eee", side := "both", name := none, version := none }

/-! ## Properties of the stable descending sort used by `select_version` -/

/-- The head of the stable descending-by-publish-date sort of a list is a
member of maximal key, and among the elements tied at that key it is the
one earliest in input order (stability). -/
theorem head_insertionSort_max (l : List Version) (r : Version) (rest : List Version)
    (h : l.insertionSort descR = r :: rest) :
    r ∈ l ∧ (∀ w ∈ l, version_sort_key w ≤ version_sort_key r) ∧
      (l.filter (fun w => version_sort_key w == version_sort_key r)).head? = some r := by
  have hperm : (r :: rest).Perm l := by
    have hp := List.perm_insertionSort descR l
    rwa [h] at hp
  have hmem : r ∈ l := hperm.mem_iff.mp (List.mem_cons_self r rest)
  have hsorted : List.Pairwise descR (r :: rest) := by
    have hs := List.sorted_insertionSort descR l
    rwa [h] at hs
  have hmax : ∀ w ∈ l, version_sort_key w ≤ version_sort_key r := by
    intro w hw
    have hw2 : w ∈ r :: rest := hperm.mem_iff.mpr hw
    rcases List.mem_cons.mp hw2 with hEq | hw3
    · simp [hEq]
    · exact List.rel_of_pairwise_cons hsorted hw3
  refine ⟨hmem, hmax, ?_⟩
  have hSpair : List.Pairwise descR
      (l.filter (fun w => version_sort_key w == version_sort_key r)) := by
    apply List.pairwise_of_forall_mem_list
    intro a ha b hb
    have ha2 := (List.mem_filter.mp ha).2
    have hb2 := (List.mem_filter.mp hb).2
    simp only [beq_iff_eq] at ha2 hb2
    rw [descR, ha2, hb2]
  have hSm : (l.filter (fun w => version_sort_key w == version_sort_key r)).Sublist
      (r :: rest) := by
    have hs := List.sublist_insertionSort hSpair (List.filter_sublist l)
    rwa [h] at hs
  have hidem : (l.filter (fun w => version_sort_key w == version_sort_key r)).filter
      (fun w => version_sort_key w == version_sort_key r)
      = l.filter (fun w => version_sort_key w == version_sort_key r) :=
    List.filter_eq_self.mpr (fun a ha => (List.mem_filter.mp ha).2)
  have hSf : (l.filter (fun w => version_sort_key w == version_sort_key r)).Sublist
      ((r :: rest).filter (fun w => version_sort_key w == version_sort_key r)) := by
    have h2 := hSm.filter (fun w => version_sort_key w == version_sort_key r)
    rwa [hidem] at h2
  have hlen : (l.filter (fun w => version_sort_key w == version_sort_key r)).length
      = ((r :: rest).filter (fun w => version_sort_key w == version_sort_key r)).length := by
    rw [← List.countP_eq_length_filter, ← List.countP_eq_length_filter]
    exact (hperm.countP_eq (fun w => version_sort_key w == version_sort_key r)).symm
  have hEqF := hSf.eq_of_length hlen
  rw [hEqF, List.filter_cons]
  simp

/-- The value produced by the sort-then-index idiom of `select_version`
on a non-empty list: a maximal-key element, earliest in input order among
the tied ones. -/
theorem headD_insertionSort_spec (l : List Version) (d : Version) (hl : l ≠ []) :
    ((l.insertionSort descR).headD d) ∈ l ∧
      (∀ w ∈ l, version_sort_key w ≤ version_sort_key ((l.insertionSort descR).headD d)) ∧
      (l.filter (fun w =>
          version_sort_key w == version_sort_key ((l.insertionSort descR).headD d))).head?
        = some ((l.insertionSort descR).headD d) := by
  cases h : l.insertionSort descR with
  | nil =>
    exfalso
    have hlen := List.length_insertionSort descR l
    rw [h] at hlen
    exact hl (List.length_eq_zero.mp hlen.symm)
  | cons r rest =>
    rw [List.headD_cons]
    exact head_insertionSort_max l r rest h

/-- C2: for every non-empty list of filtered versions, a given (non-empty,
as `collect_entries` guarantees) pin keeps only versions whose
`version_number` equals the pin and returns the most recently published
of these - ties on the parsed publish timestamp resolved in favour of the
earliest in input order - failing with the no-matching-version error when
none match; without a pin the same most-recent/earliest-tie selection is
applied to the whole filtered list. -/
theorem select_version_spec (versions : List Version) (p : String)
    (hp : p ≠ "") (hne : versions ≠ []) :
    ((versions.filter (fun v => v.version_number == some p)) ≠ [] →
       ∃ r, select_version versions (some p) = .ok r) ∧
    (∀ r, select_version versions (some p) = .ok r →
       r ∈ versions.filter (fun v => v.version_number == some p) ∧
       (∀ w ∈ versions.filter (fun v => v.version_number == some p),
          version_sort_key w ≤ version_sort_key r) ∧
       ((versions.filter (fun v => v.version_number == some p)).filter
          (fun w => version_sort_key w == version_sort_key r)).head? = some r) ∧
    ((versions.filter (fun v => v.version_number == some p)) = [] →
       select_version versions (some p)
         = .error ("No compatible version_number=\x27" ++ p ++ "\x27 found")) ∧
    (∃ r, select_version versions none = .ok r ∧ r ∈ versions ∧
       (∀ w ∈ versions, version_sort_key w ≤ version_sort_key r) ∧
       (versions.filter (fun w => version_sort_key w == version_sort_key r)).head?
         = some r) := by
  obtain ⟨v0, vrest, rfl⟩ : ∃ v0 vrest, versions = v0 :: vrest := by
    cases versions with
    | nil => exact absurd rfl hne
    | cons a l => exact ⟨a, l, rfl⟩
  have hnone : select_version (v0 :: vrest) none
      = .ok (((v0 :: vrest).insertionSort descR).headD v0) := by
    simp [select_version]
  have hsome : select_version (v0 :: vrest) (some p)
      = match (v0 :: vrest).filter (fun v => v.version_number == some p) with
        | [] => .error ("No compatible version_number=\x27" ++ p ++ "\x27 found")
        | m0 :: ms =>
          .ok ((if (m0 :: ms).length > 1 then (m0 :: ms).insertionSort descR
                else m0 :: ms).headD m0) := by
    simp only [select_version, Option.getD_some]
    rw [if_pos hp]
  refine ⟨?_, ?_, ?_, ?_⟩
  · intro hm
    cases hfil : (v0 :: vrest).filter (fun v => v.version_number == some p) with
    | nil => exact absurd hfil hm
    | cons m0 ms =>
      rw [hfil] at hsome
      exact ⟨_, hsome⟩
  · intro r hr
    rw [hsome] at hr
    cases hfil : (v0 :: vrest).filter (fun v => v.version_number == some p) with
    | nil => rw [hfil] at hr; simp at hr
    | cons m0 ms =>
      rw [hfil] at hr
      have hrval : r = (if (m0 :: ms).length > 1 then (m0 :: ms).insertionSort descR
          else m0 :: ms).headD m0 := by
        exact (Except.ok.injEq _ _).mp hr.symm
      cases ms with
      | nil =>
        have hone : ¬ ((m0 :: ([] : List Version)).length > 1) := by simp
        rw [if_neg hone, List.headD_cons] at hrval
        subst hrval
        refine ⟨List.mem_cons_self _ _, ?_, ?_⟩
        · intro w hw
          rcases List.mem_cons.mp hw with hEq | hEq
          · simp [hEq]
          · simp at hEq
        · simp [List.filter_cons]
      | cons m1 ms2 =>
        have hgt : (m0 :: m1 :: ms2).length > 1 := by
          simp
        rw [if_pos hgt] at hrval
        subst hrval
        exact headD_insertionSort_spec (m0 :: m1 :: ms2) m0 (by simp)
  · intro hm
    rw [hm] at hsome
    exact hsome
  · rw [hnone]
    exact ⟨_, rfl, headD_insertionSort_spec (v0 :: vrest) v0 (by simp)⟩


/-- Witness for C2 at a concrete input. -/
theorem select_version_spec_witness :
    ∃ r, select_version [c2SampleVersion] (some "1.0") = .ok r := by
  have h := select_version_spec [c2SampleVersion] "1.0" (by decide) (by simp)
  exact h.1 (by decide)

/-- C6: selecting a version from an empty filtered list fails with the
no-compatible-versions error, whatever the pin argument is. -/
theorem select_version_empty (pin : Option String) :
    select_version [] pin = .error "No compatible versions found" := rfl

/-- C3: a version passes `filter_versions` exactly when it declares no
constraining `game_versions` list (absent, non-list, or empty - all of
which the source treats as unconstrained) or the requested game version
is among them, and - when a loader is specified - its `loaders` value is
a list containing that loader; and the `main` wiring requires the loader
for the mods category only, resolving resource packs and shader packs
with no loader filter. -/
theorem filter_versions_spec :
    (∀ (versions : List Version) (mc : String) (lo : Option String) (v : Version),
       v ∈ filter_versions versions mc lo ↔
         v ∈ versions ∧
         (v.game_versions = none ∨ v.game_versions = some [] ∨
           ∃ gvs, v.game_versions = some gvs ∧ mc ∈ gvs) ∧
         (lo = none ∨ ∃ ld ls, lo = some ld ∧ v.loaders = some ls ∧ ld ∈ ls)) ∧
    (∀ (fetch : String → Except String (List Version)) (mc loader : String)
       (mods rp sp : List EntryRef),
       resolveTarget fetch mc loader mods rp sp "mods"
         = (match resolve_entries_loop fetch mc (some loader) "mods" mods [] with
            | .error e => .error e
            | .ok res => .ok (res.insertionSort ciR)) ∧
       resolveTarget fetch mc loader mods rp sp "resourcepacks"
         = (match resolve_entries_loop fetch mc none "resourcepacks" rp [] with
            | .error e => .error e
            | .ok res => .ok (res.insertionSort ciR)) ∧
       resolveTarget fetch mc loader mods rp sp "shaderpacks"
         = (match resolve_entries_loop fetch mc none "shaderpacks" sp [] with
            | .error e => .error e
            | .ok res => .ok (res.insertionSort ciR))) := by
  constructor
  · intro versions mc lo v
    rw [filter_versions, List.mem_filter]
    refine and_congr_right fun _ => ?_
    rw [Bool.and_eq_true]
    refine and_congr ?_ ?_
    · cases hgv : v.game_versions with
      | none => simp [hgv]
      | some gvs =>
        cases gvs with
        | nil => simp [hgv]
        | cons g gs =>
          simp [hgv, List.contains, List.isEmpty_iff]
    · cases lo with
      | none => simp
      | some ld =>
        cases hls : v.loaders with
        | none => simp [hls]
        | some ls => simp [hls, List.contains]
  · intro fetch mc loader mods rp sp
    exact ⟨rfl, rfl, rfl⟩

/-- C1: packaging an entry list for a single target side includes an
entry exactly when its side is `both` or equals the target, and tags each
included entry with the environment pair determined by the entry side
alone - client entries `required`/`unsupported`, server entries
`unsupported`/`required`, `both` entries `required`/`required` whichever
side is being packaged. -/
theorem build_files_spec (entries : List LockEntry) (target : String)
    (htarget : target = "client" ∨ target = "server") (path_pre : String)
    (hsides : ∀ e ∈ entries, e.side ∈ VALID_SIDES) :
    build_files entries target path_pre
      = entries.filterMap (fun entry =>
          if entry.side = "both" ∨ entry.side = target then
            some { path := path_pre ++ "/" ++ entry.filename
                   hashes := entry.hashes
                   downloads := entry.downloads
                   fileSize := entry.fileSize
                   env := if entry.side = "client" then
                            { client := "required", server := "unsupported" }
                          else if entry.side = "server" then
                            { client := "unsupported", server := "required" }
                          else { client := "required", server := "required" } }
          else none) := by
  induction entries with
  | nil => rfl
  | cons entry rest ih =>
    have ihrest := ih (fun e he => hsides e (List.mem_cons_of_mem entry he))
    by_cases h : entry.side = "both" ∨ entry.side = target
    · have hneg : ¬ (entry.side ≠ "both" ∧ entry.side ≠ target) := by tauto
      rw [build_files, if_neg hneg, List.filterMap_cons, if_pos h, ihrest]
      rfl
    · have hpos : entry.side ≠ "both" ∧ entry.side ≠ target := by tauto
      rw [build_files, if_pos hpos, List.filterMap_cons, if_neg h, ihrest]


/-- Witness for C1 at a concrete input: a `both`-side entry packaged for
the client target keeps the universal environment tag. -/
theorem build_files_spec_witness :
    build_files [c1Sample] "client" "mods"
      = [{ path := "mods/sodium.jar"
           hashes := { sha1 := none, sha512 := some "abc" }
           downloads := ["https://cdn.example/sodium.jar"]
           fileSize := 12345
           env := { client := "required", server := "required" } }] := by
  have h := build_files_spec [c1Sample] "client" (Or.inl rfl) "mods" (by decide)
  rw [h]
  rfl

/-- C10: every lock entry built from a registry file object under a valid
declared side passes the value checks of the packaging-side manifest
validator, and its downloads field is a one-element list holding a
non-empty URL. -/
theorem build_lock_entry_valid (file_obj : FileObj) (side : String)
    (hside : side ∈ VALID_SIDES) :
    ∀ e, build_lock_entry file_obj side = .ok e →
      validate_entry e = true ∧ ∃ u, e.downloads = [u] ∧ u ≠ "" := by
  intro e he
  rw [build_lock_entry] at he
  split_ifs at he with h1 h2 h3
  cases hh : file_obj.hashes with
  | none => rw [hh] at he; exact absurd he (by simp)
  | some hashes =>
    rw [hh] at he
    simp only at he
    split_ifs at he with h4
    have hEq : e = { filename := file_obj.filename.getD ""
                     side := side
                     downloads := [file_obj.url.getD ""]
                     hashes := { sha1 := match hashes.sha1 with
                                   | some s => if s ≠ "" then some s else none
                                   | none => none
                                 sha512 := match hashes.sha512 with
                                   | some s => if s ≠ "" then some s else none
                                   | none => none }
                     fileSize := file_obj.size.getD 0 } := by
      exact ((Except.ok.injEq _ _).mp he).symm
    subst hEq
    constructor
    · rw [validate_entry]
      simp only [Bool.and_eq_true]
      refine ⟨⟨⟨⟨?_, ?_⟩, ?_⟩, ?_⟩, ?_⟩
      · simpa using h1
      · simpa [VALID_SIDES] using hside
      · simp [h2]
      · rcases not_and_or.mp h4 with h5 | h5 <;>
          simp only [Option.isSome, Bool.or_eq_true] <;>
          [left; right] <;>
          · revert h5
            cases hs : (match hashes.sha1 with
              | some s => if s ≠ "" then some s else none
              | none => none : Option String) <;>
            cases hs2 : (match hashes.sha512 with
              | some s => if s ≠ "" then some s else none
              | none => none : Option String) <;>
            simp [hs, hs2]
      · simp only [decide_eq_true_eq]
        omega
    · exact ⟨file_obj.url.getD "", rfl, h2⟩

/-! ## Properties of the case-insensitive filename sort and of the
resolution loop -/



/-- An `.ok` run of the resolution loop resolves every entry in order
(no entry is dropped or overwritten), and its resolved filenames are
pairwise distinct and disjoint from the already-seen set. -/
theorem resolve_entries_loop_ok (fetch : String → Except String (List Version))
    (mc : String) (lo : Option String) (label : String) :
    ∀ (entries : List EntryRef) (seen : List String) (l : List LockEntry),
    resolve_entries_loop fetch mc lo label entries seen = .ok l →
    List.Forall₂ (fun e le => resolve_one fetch mc lo e = .ok le) entries l ∧
      (l.map (fun le => le.filename)).Nodup ∧
      (∀ fn ∈ l.map (fun le => le.filename), fn ∉ seen) := by
  intro entries
  induction entries with
  | nil =>
    intro seen l h
    rw [resolve_entries_loop] at h
    obtain rfl : ([] : List LockEntry) = l := (Except.ok.injEq _ _).mp h
    exact ⟨List.Forall₂.nil, List.nodup_nil, by simp⟩
  | cons entry rest ih =>
    intro seen l h
    rw [resolve_entries_loop] at h
    cases hre : resolve_one fetch mc lo entry with
    | error err => rw [hre] at h; exact absurd h (by simp)
    | ok le =>
      rw [hre] at h
      simp only at h
      by_cases hseen : seen.contains le.filename
      · rw [if_pos hseen] at h; exact absurd h (by simp)
      · rw [if_neg hseen] at h
        cases htail : resolve_entries_loop fetch mc lo label rest (le.filename :: seen) with
        | error err => rw [htail] at h; exact absurd h (by simp)
        | ok tail =>
          rw [htail] at h
          obtain rfl : le :: tail = l := (Except.ok.injEq _ _).mp h
          obtain ⟨hf, hnd, hdis⟩ := ih (le.filename :: seen) tail htail
          refine ⟨List.Forall₂.cons hre hf, ?_, ?_⟩
          · rw [List.map_cons, List.nodup_cons]
            refine ⟨?_, hnd⟩
            intro hmem
            exact hdis le.filename hmem (List.mem_cons_self _ _)
          · intro fn hfn
            rw [List.map_cons] at hfn
            rcases List.mem_cons.mp hfn with rfl | hfn2
            · simpa [List.contains_iff_exists_mem_beq] using hseen
            · intro hfnseen
              exact hdis fn hfn2 (List.mem_cons_of_mem _ hfnseen)

/-- When every entry of a list individually resolves and the resolved
filenames are pairwise distinct (case-sensitively) and avoid the seen
set, the loop succeeds with exactly those entries in order. -/
theorem resolve_entries_loop_all_ok (fetch : String → Except String (List Version))
    (mc : String) (lo : Option String) (label : String) :
    ∀ (entries : List EntryRef) (l : List LockEntry) (seen : List String),
    List.Forall₂ (fun e le => resolve_one fetch mc lo e = .ok le) entries l →
    (l.map (fun le => le.filename)).Nodup →
    (∀ fn ∈ l.map (fun le => le.filename), fn ∉ seen) →
    resolve_entries_loop fetch mc lo label entries seen = .ok l := by
  intro entries
  induction entries with
  | nil =>
    intro l seen hf _ _
    cases hf
    rfl
  | cons entry rest ih =>
    intro l seen hf hnd hdis
    cases hf with
    | cons hre hf2 =>
      rename_i le tail
      rw [resolve_entries_loop, hre]
      simp only
      have hfn_not : le.filename ∉ seen :=
        hdis le.filename (by simp)
      have hseen : ¬ seen.contains le.filename = true := by
        simpa [List.contains_iff_exists_mem_beq] using hfn_not
      rw [if_neg hseen]
      rw [List.map_cons, List.nodup_cons] at hnd
      have htail := ih tail (le.filename :: seen) hf2 hnd.2 ?_
      · rw [htail]
      · intro fn hfn
        rw [List.mem_cons]
        rintro (rfl | hfnseen)
        · exact hnd.1 hfn
        · exact hdis fn (by simp [hfn]) hfnseen

/-- When every entry individually resolves but two resolved filenames
collide (case-sensitively) - or a resolved filename was already seen -
the loop aborts with the duplicate-filename message naming one of the
resolved filenames and the category label. -/
theorem resolve_entries_loop_dup (fetch : String → Except String (List Version))
    (mc : String) (lo : Option String) (label : String) :
    ∀ (entries : List EntryRef) (l : List LockEntry) (seen : List String),
    List.Forall₂ (fun e le => resolve_one fetch mc lo e = .ok le) entries l →
    (¬ (l.map (fun le => le.filename)).Nodup ∨
      ∃ fn ∈ l.map (fun le => le.filename), fn ∈ seen) →
    ∃ fn, fn ∈ l.map (fun le => le.filename) ∧
      resolve_entries_loop fetch mc lo label entries seen
        = .error (dupMsg fn label) := by
  intro entries
  induction entries with
  | nil =>
    intro l seen hf hbad
    cases hf
    rcases hbad with hbad | ⟨fn, hfn, _⟩
    · exact absurd List.nodup_nil hbad
    · simp at hfn
  | cons entry rest ih =>
    intro l seen hf hbad
    cases hf with
    | cons hre hf2 =>
      rename_i le tail
      rw [resolve_entries_loop, hre]
      simp only
      by_cases hseen : seen.contains le.filename
      · exact ⟨le.filename, by simp, by rw [if_pos hseen]⟩
      · rw [if_neg hseen]
        have hfn_not : le.filename ∉ seen := by
          simpa [List.contains_iff_exists_mem_beq] using hseen
        have hbad2 : ¬ (tail.map (fun le => le.filename)).Nodup ∨
            ∃ fn ∈ tail.map (fun le => le.filename), fn ∈ le.filename :: seen := by
          rcases hbad with hbad | ⟨fn, hfn, hfnseen⟩
          · rw [List.map_cons, List.nodup_cons] at hbad
            rcases not_and_or.mp hbad with hmem | hnd
            · right
              exact ⟨le.filename, not_not.mp hmem, List.mem_cons_self _ _⟩
            · left; exact hnd
          · rw [List.map_cons, List.mem_cons] at hfn
            rcases hfn with rfl | hfn2
            · exact absurd hfnseen hfn_not
            · right
              exact ⟨fn, hfn2, List.mem_cons_of_mem _ hfnseen⟩
        obtain ⟨fn, hfn, hloop⟩ := ih tail (le.filename :: seen) hf2 hbad2
        refine ⟨fn, by simp [hfn], ?_⟩
        rw [hloop]


/-- C4 counterexample: two references whose registry responses collide on
the filename `same.jar` make resolution fail, but the duplicate error
message contains neither colliding source reference (neither the two
normalized URLs nor the two project ids occur in it) - it names only the
duplicated filename and the category label. -/
theorem resolve_entries_dup_msg_counterexample :
    resolve_entries sampleFetch [refA, refB] "1.20.1" "fabric" "mods" true
        = .error (dupMsg "same.jar" "mods") ∧
      strContains (dupMsg "same.jar" "mods") refA.url = false ∧
      strContains (dupMsg "same.jar" "mods") refB.url = false ∧
      strContains (dupMsg "same.jar" "mods") "aaa" = false ∧
      strContains (dupMsg "same.jar" "mods") "bbb" = false := by
  refine ⟨?_, ?_, ?_, ?_, ?_⟩ <;> rfl

/-- C4 (amended): a filename collision within one category aborts
resolution with the duplicate-filename error naming the duplicated
filename and the category label (not the colliding source references),
and a successful resolution never drops or overwrites an entry: it
resolves every reference in order with pairwise-distinct filenames. -/
theorem resolve_entries_duplicate_spec (fetch : String → Except String (List Version))
    (mc : String) (lo : Option String) (label : String) (entries : List EntryRef) :
    (∀ l, resolve_entries_loop fetch mc lo label entries [] = .ok l →
       List.Forall₂ (fun e le => resolve_one fetch mc lo e = .ok le) entries l ∧
         (l.map (fun le => le.filename)).Nodup) ∧
    (∀ l, List.Forall₂ (fun e le => resolve_one fetch mc lo e = .ok le) entries l →
       ¬ (l.map (fun le => le.filename)).Nodup →
       ∃ fn, fn ∈ l.map (fun le => le.filename) ∧
         resolve_entries_loop fetch mc lo label entries []
           = .error (dupMsg fn label)) := by
  constructor
  · intro l h
    obtain ⟨hf, hnd, _⟩ := resolve_entries_loop_ok fetch mc lo label entries [] l h
    exact ⟨hf, hnd⟩
  · intro l hf hnd
    exact resolve_entries_loop_dup fetch mc lo label entries l [] hf (Or.inl hnd)

/-- Witness for the amended C4 at the concrete colliding input. -/
theorem resolve_entries_duplicate_spec_witness :
    ∃ fn, fn ∈ ([lockA, lockB].map (fun le => le.filename)) ∧
      resolve_entries_loop sampleFetch "1.20.1" (some "fabric") "mods" [refA, refB] []
        = .error (dupMsg fn "mods") := by
  apply (resolve_entries_duplicate_spec sampleFetch "1.20.1" (some "fabric") "mods"
    [refA, refB]).2
  · exact List.Forall₂.cons rfl (List.Forall₂.cons rfl List.Forall₂.nil)
  · decide

/-- C7: a lock manifest produced by `resolve_entries` is sorted
case-insensitively by filename and its filenames are pairwise distinct;
the collision check itself is case-sensitive - whenever the individually
resolved entries have pairwise-distinct filenames (even if they collide
case-insensitively), resolution succeeds and returns exactly their
stable case-insensitive sort; and resolution is a pure function of the
references and registry data, so the same inputs yield identical
manifest output. -/
theorem resolve_entries_sorted_spec (fetch : String → Except String (List Version))
    (entries : List EntryRef) (mc loader label : String) (req : Bool) :
    (∀ l, resolve_entries fetch entries mc loader label req = .ok l →
       l.Pairwise ciR ∧
         (l.map (fun le => le.filename)).Nodup) ∧
    (∀ l2, List.Forall₂ (fun e le =>
         resolve_one fetch mc (if req then some loader else none) e = .ok le) entries l2 →
       (l2.map (fun le => le.filename)).Nodup →
       resolve_entries fetch entries mc loader label req = .ok (l2.insertionSort ciR)) ∧
    resolve_entries fetch entries mc loader label req
      = resolve_entries fetch entries mc loader label req := by
  refine ⟨?_, ?_, rfl⟩
  · intro l h
    rw [resolve_entries] at h
    cases hloop : resolve_entries_loop fetch mc
        (if req then some loader else none) label entries [] with
    | error e => rw [hloop] at h; exact absurd h (by simp)
    | ok resolved =>
      rw [hloop] at h
      simp only at h
      obtain rfl : resolved.insertionSort ciR = l := (Except.ok.injEq _ _).mp h
      constructor
      · exact List.sorted_insertionSort ciR resolved
      · have hperm := (List.perm_insertionSort ciR resolved).map (fun le => le.filename)
        have hnd := (resolve_entries_loop_ok fetch mc
          (if req then some loader else none) label entries [] resolved hloop).2.1
        exact hperm.nodup_iff.mpr hnd
  · intro l2 hf hnd
    rw [resolve_entries]
    have hloop := resolve_entries_loop_all_ok fetch mc
      (if req then some loader else none) label entries l2 [] hf hnd (by simp)
    rw [hloop]

/-- Witness for C7: two entries whose filenames differ only by case
resolve without a collision error, sorted case-insensitively. -/
theorem resolve_entries_sorted_spec_witness :
    resolve_entries sampleFetch [refC, refD] "1.20.1" "fabric" "mods" true
      = .ok ([lockC, lockD].insertionSort ciR) := by
  apply (resolve_entries_sorted_spec sampleFetch [refC, refD] "1.20.1" "fabric"
    "mods" true).2.1
  · exact List.Forall₂.cons rfl (List.Forall₂.cons rfl List.Forall₂.nil)
  · decide

/-- Witness for C10 at a concrete input. -/
theorem build_lock_entry_valid_witness :
    validate_entry lockA = true ∧ ∃ u, lockA.downloads = [u] ∧ u ≠ "" := by
  exact build_lock_entry_valid (mkFile "same.jar" "https://cdn.example/a.jar")
    "both" (by decide) lockA rfl

/-! ## Run behaviour of the resolve CLI (claims C8 and C9) -/


/-- Check mode performs the category loop without recording any write and
reaches the same error outcome as a non-check run. -/
theorem runCats_check (fetch : String → Except String (List Version))
    (mc loader : String) (mods rp sp : List EntryRef) (args : ResolveArgs) :
    ∀ cats,
    (runCats fetch mc loader mods rp sp { args with check := true } cats).1 = [] ∧
    (runCats fetch mc loader mods rp sp { args with check := true } cats).2
      = (runCats fetch mc loader mods rp sp { args with check := false } cats).2 := by
  intro cats
  induction cats with
  | nil => exact ⟨rfl, rfl⟩
  | cons t rest ih =>
    rw [runCats, runCats]
    by_cases ht : (targetsFor args.target).contains t
    · have ht1 : (targetsFor ({ args with check := true } : ResolveArgs).target).contains t
          = true := ht
      have ht2 : (targetsFor ({ args with check := false } : ResolveArgs).target).contains t
          = true := ht
      rw [if_pos ht1, if_pos ht2]
      cases hres : resolveTarget fetch mc loader mods rp sp t with
      | error e => exact ⟨rfl, rfl⟩
      | ok resolved =>
        exact ⟨ih.1, ih.2⟩
    · have ht1 : ¬ ((targetsFor ({ args with check := true } : ResolveArgs).target).contains t
          = true) := ht
      have ht2 : ¬ ((targetsFor ({ args with check := false } : ResolveArgs).target).contains t
          = true) := ht
      rw [if_neg ht1, if_neg ht2]
      exact ih

/-- C9: a check-mode invocation performs the same resolution work as a
full run - surfacing the identical error outcome - but records no write
at all: the template file and the three lock files are untouched. -/
theorem runMain_check_spec (fetch : String → Except String (List Version))
    (template : Template) (mc loader : String) (mods rp sp : List EntryRef)
    (args : ResolveArgs) :
    runMain fetch template mc loader mods rp sp { args with check := true }
      = ([], (runMain fetch template mc loader mods rp sp
               { args with check := false }).2) := by
  have h := runCats_check fetch mc loader mods rp sp args
    ["mods", "resourcepacks", "shaderpacks"]
  rw [runMain, runMain]
  simp only [h.1, h.2]
  rw [if_neg (by simp)]
  rfl

/-- A failing non-check run: every recorded lock write belongs to a
targeted category strictly before the failing one (in the fixed category
order) and holds that category's complete successfully-resolved
manifest; the failing category and the ones after it record nothing. -/
theorem runCats_error_spec (fetch : String → Except String (List Version))
    (mc loader : String) (mods rp sp : List EntryRef) (args : ResolveArgs)
    (hcheck : args.check = false) :
    ∀ (cats : List String) (e : String),
    (runCats fetch mc loader mods rp sp args cats).2 = some e →
    ∃ pre t post, cats = pre ++ t :: post ∧
      (targetsFor args.target).contains t ∧
      resolveTarget fetch mc loader mods rp sp t = .error e ∧
      List.Forall₂ (fun t2 w => w.1 = lockPath args t2 ∧
          resolveTarget fetch mc loader mods rp sp t2 = .ok w.2)
        (pre.filter (fun t2 => (targetsFor args.target).contains t2))
        (runCats fetch mc loader mods rp sp args cats).1 := by
  intro cats
  induction cats with
  | nil => intro e he; exact absurd he (by simp [runCats])
  | cons t rest ih =>
    intro e he
    rw [runCats] at he ⊢
    by_cases ht : (targetsFor args.target).contains t
    · rw [if_pos ht] at he ⊢
      cases hres : resolveTarget fetch mc loader mods rp sp t with
      | error e0 =>
        rw [hres] at he
        obtain rfl : e0 = e := by simpa using he
        refine ⟨[], t, rest, rfl, ht, hres, ?_⟩
        simp
      | ok resolved =>
        rw [hres] at he
        rw [hcheck] at he ⊢
        replace he : (runCats fetch mc loader mods rp sp args rest).2 = some e := he
        obtain ⟨pre, t2, post, hcats, ht2, hres2, hforall⟩ := ih e he
        refine ⟨t :: pre, t2, post, by simp [hcats], ht2, hres2, ?_⟩
        show List.Forall₂ _
          (List.filter (fun t2 => (targetsFor args.target).contains t2) (t :: pre))
          ((lockPath args t, resolved) :: (runCats fetch mc loader mods rp sp args rest).1)
        rw [List.filter_cons, if_pos (by simpa using ht)]
        exact List.Forall₂.cons ⟨rfl, hres⟩ hforall
    · rw [if_neg ht] at he ⊢
      obtain ⟨pre, t2, post, hcats, ht2, hres2, hforall⟩ := ih e he
      refine ⟨t :: pre, t2, post, by simp [hcats], ht2, hres2, ?_⟩
      rw [List.filter_cons, if_neg (by simpa using ht)]
      exact hforall

/-- C8 (amended): in a non-check run, any resolution error aborts the run
at its category: the failing category and all later ones write nothing,
and what has been written is the template (when targeted) plus one
complete successfully-resolved lock manifest per targeted category
strictly before the failing one - so a failing run never writes partial
lock content, but locks of categories that completed earlier in the same
run have already been written. -/
theorem runMain_failfast_spec (fetch : String → Except String (List Version))
    (template : Template) (mc loader : String) (mods rp sp : List EntryRef)
    (args : ResolveArgs) (hcheck : args.check = false) (e : String)
    (he : (runMain fetch template mc loader mods rp sp args).2 = some e) :
    ∃ pre t post ws,
      (["mods", "resourcepacks", "shaderpacks"] : List String) = pre ++ t :: post ∧
      (targetsFor args.target).contains t ∧
      resolveTarget fetch mc loader mods rp sp t = .error e ∧
      (runMain fetch template mc loader mods rp sp args).1
        = (if (targetsFor args.target).contains "template" then
             [(args.template_out, OutData.template template)] else []) ++ ws ∧
      List.Forall₂ (fun t2 w => w.1 = lockPath args t2 ∧
          ∃ l2, resolveTarget fetch mc loader mods rp sp t2 = .ok l2 ∧
            w.2 = OutData.lock l2)
        (pre.filter (fun t2 => (targetsFor args.target).contains t2)) ws := by
  have he2 : (runCats fetch mc loader mods rp sp args
      ["mods", "resourcepacks", "shaderpacks"]).2 = some e := he
  obtain ⟨pre, t, post, hcats, ht, hres, hforall⟩ :=
    runCats_error_spec fetch mc loader mods rp sp args hcheck
      ["mods", "resourcepacks", "shaderpacks"] e he2
  refine ⟨pre, t, post,
    (runCats fetch mc loader mods rp sp args
      ["mods", "resourcepacks", "shaderpacks"]).1.map
        (fun w => (w.1, OutData.lock w.2)), hcats, ht, hres, ?_, ?_⟩
  · rw [runMain]
    simp only [hcheck]
    simp
  · rw [List.forall₂_map_right_iff]
    refine hforall.imp ?_
    intro t2 w hw
    exact ⟨hw.1, w.2, hw.2, rfl⟩

/-- Witness for the amended C8: a concrete run whose resource-pack
category fails after the mods lock has been resolved. -/
theorem runMain_failfast_spec_witness :
    ∃ pre t post ws,
      (["mods", "resourcepacks", "shaderpacks"] : List String) = pre ++ t :: post ∧
      (targetsFor sampleArgs.target).contains t ∧
      resolveTarget sampleFetch "1.20.1" "fabric" [refA] [refE] [] t = .error
        "No compatible versions found" ∧
      (runMain sampleFetch sampleTemplate "1.20.1" "fabric" [refA] [refE] []
          sampleArgs).1
        = (if (targetsFor sampleArgs.target).contains "template" then
             [(sampleArgs.template_out, OutData.template sampleTemplate)] else []) ++ ws ∧
      List.Forall₂ (fun t2 w => w.1 = lockPath sampleArgs t2 ∧
          ∃ l2, resolveTarget sampleFetch "1.20.1" "fabric" [refA] [refE] [] t2
              = .ok l2 ∧ w.2 = OutData.lock l2)
        (pre.filter (fun t2 => (targetsFor sampleArgs.target).contains t2)) ws := by
  exact runMain_failfast_spec sampleFetch sampleTemplate "1.20.1" "fabric"
    [refA] [refE] [] sampleArgs rfl "No compatible versions found" rfl

/-- C8 counterexample: on that same run the claim as stated fails - the
run errors, yet the mods lock manifest has been written. -/
theorem runMain_partial_write_counterexample :
    (runMain sampleFetch sampleTemplate "1.20.1" "fabric" [refA] [refE] []
        sampleArgs).2 = some "No compatible versions found" ∧
    (sampleArgs.mods_lock, OutData.lock [lockA])
      ∈ (runMain sampleFetch sampleTemplate "1.20.1" "fabric" [refA] [refE] []
          sampleArgs).1 := by
  constructor
  · rfl
  · decide

/-! ## Helper lemmas for the URL parsing embedding (claim C5) -/

theorem breakAtFirst_eq (d : Char) :
    ∀ (l a b : List Char), breakAtFirst d l = some (a, b) → l = a ++ d :: b ∧ d ∉ a := by
  intro l
  induction l with
  | nil => intro a b h; simp [breakAtFirst] at h
  | cons c rest ih =>
    intro a b h
    rw [breakAtFirst] at h
    by_cases hc : c = d
    · rw [if_pos hc] at h
      obtain ⟨rfl, rfl⟩ : ([] : List Char) = a ∧ rest = b := by
        simpa using h
      subst hc
      exact ⟨rfl, by simp⟩
    · rw [if_neg hc] at h
      cases hbr : breakAtFirst d rest with
      | none => rw [hbr] at h; simp at h
      | some p =>
        rw [hbr] at h
        obtain ⟨ha, hb⟩ : c :: p.1 = a ∧ p.2 = b := by simpa using h
        obtain ⟨hl, hnm⟩ := ih p.1 p.2 (by rw [hbr])
        subst ha
        subst hb
        refine ⟨by rw [List.cons_append, ← hl], ?_⟩
        intro hd
        rcases List.mem_cons.mp hd with heq | hd2
        · exact hc heq.symm
        · exact hnm hd2

theorem breakAtFirst_cons_self (d : Char) (l : List Char) :
    breakAtFirst d (d :: l) = some ([], l) := by
  rw [breakAtFirst, if_pos rfl]

theorem breakAtFirst_append_left (d : Char) (l₁ l₂ : List Char) (h : d ∉ l₁) :
    breakAtFirst d (l₁ ++ l₂)
      = (breakAtFirst d l₂).map (fun p => (l₁ ++ p.1, p.2)) := by
  induction l₁ with
  | nil =>
    cases h2 : breakAtFirst d l₂ <;> simp [h2]
  | cons c rest ih =>
    rw [List.cons_append, breakAtFirst,
      if_neg (by rintro rfl; exact h (List.mem_cons_self _ _))]
    rw [ih (fun hm => h (List.mem_cons_of_mem _ hm))]
    cases h2 : breakAtFirst d l₂ <;> simp [h2]

theorem takeUntilChars_cons_stop (stops : List Char) (c : Char) (l : List Char)
    (h : stops.contains c = true) :
    takeUntilChars stops (c :: l) = [] := by
  rw [takeUntilChars, if_pos h]

theorem takeUntilChars_append_left (stops : List Char) (l₁ l₂ : List Char)
    (h : ∀ c ∈ l₁, stops.contains c = false) :
    takeUntilChars stops (l₁ ++ l₂) = l₁ ++ takeUntilChars stops l₂ := by
  induction l₁ with
  | nil => simp
  | cons c rest ih =>
    rw [List.cons_append, takeUntilChars,
      if_neg (by rw [h c (List.mem_cons_self _ _)]; simp),
      ih (fun c2 h2 => h c2 (List.mem_cons_of_mem _ h2)), List.cons_append]

theorem takeUntilChars_eq_self (stops : List Char) (l : List Char)
    (h : ∀ c ∈ l, stops.contains c = false) :
    takeUntilChars stops l = l := by
  induction l with
  | nil => rfl
  | cons c rest ih =>
    rw [takeUntilChars, if_neg (by rw [h c (List.mem_cons_self _ _)]; simp),
      ih (fun c2 h2 => h c2 (List.mem_cons_of_mem _ h2))]

theorem dropUntilChars_cons_stop (stops : List Char) (c : Char) (l : List Char)
    (h : stops.contains c = true) :
    dropUntilChars stops (c :: l) = c :: l := by
  rw [dropUntilChars, if_pos h]

theorem dropUntilChars_append_left (stops : List Char) (l₁ l₂ : List Char)
    (h : ∀ c ∈ l₁, stops.contains c = false) :
    dropUntilChars stops (l₁ ++ l₂) = dropUntilChars stops l₂ := by
  induction l₁ with
  | nil => simp
  | cons c rest ih =>
    rw [List.cons_append, dropUntilChars,
      if_neg (by rw [h c (List.mem_cons_self _ _)]; simp),
      ih (fun c2 h2 => h c2 (List.mem_cons_of_mem _ h2))]

theorem mem_takeUntilChars (stops : List Char) :
    ∀ (l : List Char) (c : Char), c ∈ takeUntilChars stops l →
      c ∈ l ∧ stops.contains c = false := by
  intro l
  induction l with
  | nil => intro c h; simp [takeUntilChars] at h
  | cons d rest ih =>
    intro c h
    rw [takeUntilChars] at h
    by_cases hd : stops.contains d = true
    · rw [if_pos hd] at h; simp at h
    · rw [if_neg hd] at h
      rcases List.mem_cons.mp h with rfl | h2
      · exact ⟨List.mem_cons_self _ _, Bool.not_eq_true _ ▸ (by simpa using hd)⟩
      · obtain ⟨h3, h4⟩ := ih c h2
        exact ⟨List.mem_cons_of_mem _ h3, h4⟩

theorem mem_dropUntilChars (stops : List Char) :
    ∀ (l : List Char) (c : Char), c ∈ dropUntilChars stops l → c ∈ l := by
  intro l
  induction l with
  | nil => intro c h; simp [dropUntilChars] at h
  | cons d rest ih =>
    intro c h
    rw [dropUntilChars] at h
    by_cases hd : stops.contains d = true
    · rw [if_pos hd] at h; exact h
    · rw [if_neg hd] at h
      exact List.mem_cons_of_mem _ (ih c h)

theorem splitOnSlash_ne_nil : ∀ (l : List Char), splitOnSlash l ≠ [] := by
  intro l
  induction l with
  | nil => simp [splitOnSlash]
  | cons c rest ih =>
    rw [splitOnSlash]
    by_cases hc : c = '/'
    · simp [hc]
    · rw [if_neg hc]
      cases h : splitOnSlash rest with
      | nil => exact absurd h ih
      | cons s ss => simp

theorem mem_splitOnSlash : ∀ (l seg : List Char), seg ∈ splitOnSlash l →
    ('/' ∉ seg) ∧ ∀ c ∈ seg, c ∈ l := by
  intro l
  induction l with
  | nil =>
    intro seg h
    simp only [splitOnSlash, List.mem_singleton] at h
    subst h
    simp
  | cons c rest ih =>
    intro seg h
    rw [splitOnSlash] at h
    by_cases hc : c = '/'
    · rw [if_pos hc] at h
      rcases List.mem_cons.mp h with rfl | h2
      · simp
      · obtain ⟨h3, h4⟩ := ih seg h2
        exact ⟨h3, fun c2 hc2 => List.mem_cons_of_mem _ (h4 c2 hc2)⟩
    · rw [if_neg hc] at h
      cases hrec : splitOnSlash rest with
      | nil => exact absurd hrec (splitOnSlash_ne_nil rest)
      | cons s ss =>
        rw [hrec] at h
        rcases List.mem_cons.mp h with rfl | h2
        · obtain ⟨h3, h4⟩ := ih s (by rw [hrec]; exact List.mem_cons_self _ _)
          constructor
          · intro hin
            rcases List.mem_cons.mp hin with heq | hin2
            · exact hc heq.symm
            · exact h3 hin2
          · intro c2 hc2
            rcases List.mem_cons.mp hc2 with rfl | hc3
            · exact List.mem_cons_self _ _
            · exact List.mem_cons_of_mem _ (h4 c2 hc3)
        · obtain ⟨h3, h4⟩ := ih seg (by rw [hrec]; exact List.mem_cons_of_mem _ h2)
          exact ⟨h3, fun c2 hc2 => List.mem_cons_of_mem _ (h4 c2 hc2)⟩

theorem splitOnSlash_slash_cons (l : List Char) :
    splitOnSlash ('/' :: l) = [] :: splitOnSlash l := by
  rw [splitOnSlash, if_pos rfl]

theorem splitOnSlash_no_slash : ∀ (l : List Char), (∀ c ∈ l, c ≠ '/') →
    splitOnSlash l = [l] := by
  intro l
  induction l with
  | nil => intro _; rfl
  | cons c rest ih =>
    intro h
    rw [splitOnSlash, if_neg (h c (List.mem_cons_self _ _)),
      ih (fun c2 h2 => h c2 (List.mem_cons_of_mem _ h2))]

theorem splitOnSlash_append_slash (l₁ l₂ : List Char) (h : ∀ c ∈ l₁, c ≠ '/') :
    splitOnSlash (l₁ ++ '/' :: l₂) = l₁ :: splitOnSlash l₂ := by
  induction l₁ with
  | nil => simp [splitOnSlash_slash_cons]
  | cons c rest ih =>
    rw [List.cons_append, splitOnSlash, if_neg (h c (List.mem_cons_self _ _)),
      ih (fun c2 h2 => h c2 (List.mem_cons_of_mem _ h2))]

theorem splitparams_subset (p : List Char) : ∀ c ∈ splitparams p, c ∈ p := by
  intro c hc
  rw [splitparams] at hc
  by_cases hsl : p.contains '/' = true
  · rw [if_pos hsl] at hc
    cases hbr : breakAtFirst '/' p.reverse with
    | none => rw [hbr] at hc; exact hc
    | some q =>
      obtain ⟨q1, q2⟩ := q
      rw [hbr] at hc
      simp only at hc
      obtain ⟨hp, _⟩ := breakAtFirst_eq '/' p.reverse q1 q2 hbr
      have hp2 : p = q2.reverse ++ '/' :: q1.reverse := by
        have h3 := congrArg List.reverse hp
        simpa [List.reverse_append] using h3
      by_cases hsemi : q1.reverse.contains ';' = true
      · rw [if_pos hsemi] at hc
        cases hbs : breakAtFirst ';' q1.reverse with
        | none => rw [hbs] at hc; exact hc
        | some r =>
          obtain ⟨r1, r2⟩ := r
          rw [hbs] at hc
          simp only at hc
          obtain ⟨hq, _⟩ := breakAtFirst_eq ';' q1.reverse r1 r2 hbs
          rw [hp2, hq]
          rcases List.mem_append.mp hc with h1 | h1
          · exact List.mem_append_left _ h1
          · rcases List.mem_cons.mp h1 with rfl | h2
            · exact List.mem_append_right _ (List.mem_cons_self _ _)
            · exact List.mem_append_right _
                (List.mem_cons_of_mem _ (List.mem_append_left _ h2))
      · rw [if_neg hsemi] at hc; exact hc
  · rw [if_neg hsl] at hc
    cases hbs : breakAtFirst ';' p with
    | none => rw [hbs] at hc; exact hc
    | some r =>
      obtain ⟨r1, r2⟩ := r
      rw [hbs] at hc
      simp only at hc
      obtain ⟨hp2, _⟩ := breakAtFirst_eq ';' p r1 r2 hbs
      rw [hp2]
      exact List.mem_append_left _ hc

theorem mem_parsePath (scheme afterNetloc : List Char) (c : Char) :
    c ∈ parsePath scheme afterNetloc →
      c ∈ takeUntilChars ['#', '?'] afterNetloc := by
  intro h
  simp only [parsePath] at h
  split_ifs at h with hcond
  · exact splitparams_subset _ c h
  · exact h

theorem splitNetloc_cases (cs : List Char) :
    splitNetloc cs = ([], cs) ∨
    ∃ r2, cs = '/' :: '/' :: r2 ∧
      splitNetloc cs
        = (takeUntilChars ['/', '?', '#'] r2, dropUntilChars ['/', '?', '#'] r2) := by
  cases cs with
  | nil => exact Or.inl rfl
  | cons a t =>
    cases t with
    | nil => exact Or.inl rfl
    | cons b r2 =>
      by_cases hab : a = '/' ∧ b = '/'
      · obtain ⟨rfl, rfl⟩ := hab
        right
        exact ⟨r2, rfl, by rw [splitNetloc, if_pos ⟨rfl, rfl⟩]⟩
      · left
        rw [splitNetloc, if_neg hab]

theorem mem_splitNetloc_2 (cs : List Char) (c : Char) :
    c ∈ (splitNetloc cs).2 → c ∈ cs := by
  intro h
  rcases splitNetloc_cases cs with h2 | ⟨r2, hcs, h2⟩
  · rw [h2] at h; exact h
  · rw [h2] at h
    rw [hcs]
    exact List.mem_cons_of_mem _ (List.mem_cons_of_mem _ (mem_dropUntilChars _ r2 c h))

theorem splitScheme_cases (cs : List Char) :
    (splitScheme cs).2 = cs ∨
    ∃ pre, cs = pre ++ ':' :: (splitScheme cs).2 := by
  rw [splitScheme]
  cases hbr : breakAtFirst ':' cs with
  | none => exact Or.inl rfl
  | some p =>
    obtain ⟨p1, p2⟩ := p
    obtain ⟨hcs, _⟩ := breakAtFirst_eq ':' cs p1 p2 hbr
    simp only
    split_ifs with hcond
    · exact Or.inr ⟨p1, hcs⟩
    · exact Or.inl rfl

theorem mem_splitScheme_2 (cs : List Char) (c : Char) :
    c ∈ (splitScheme cs).2 → c ∈ cs := by
  intro h
  rcases splitScheme_cases cs with h2 | ⟨pre, h2⟩
  · rw [h2] at h; exact h
  · rw [h2]
    exact List.mem_append_right _ (List.mem_cons_of_mem _ h)

theorem mem_sanitizeUrl (u : String) (c : Char) :
    c ∈ sanitizeUrl u → isUnsafeUrlChar c = false := by
  intro h
  rw [sanitizeUrl] at h
  have h2 := List.mem_filter.mp h
  simpa using h2.2

/-- Every character of a parsed path survives the sanitisation (no tab,
CR or LF) and is neither `?` nor `#`. -/
theorem urlparse_path_clean (u : String) :
    ∀ c ∈ (urlparse u).path.toList,
      c ≠ '?' ∧ c ≠ '#' ∧ isUnsafeUrlChar c = false := by
  intro c hc
  have hc2 : c ∈ parsePath (splitScheme (sanitizeUrl u)).1
      (splitNetloc (splitScheme (sanitizeUrl u)).2).2 := hc
  have hc3 := mem_parsePath _ _ c hc2
  obtain ⟨hc4, hstops⟩ := mem_takeUntilChars _ _ c hc3
  have hq : c ≠ '#' ∧ c ≠ '?' := by
    constructor <;> (rintro rfl; simp at hstops)
  have hcs : c ∈ sanitizeUrl u :=
    mem_splitScheme_2 _ c (mem_splitNetloc_2 _ c hc4)
  exact ⟨hq.2, hq.1, mem_sanitizeUrl u c hcs⟩

/-- Boolean `contains` on characters decodes to membership. -/
theorem contains_eq_false_iff (l : List Char) (c : Char) :
    l.contains c = false ↔ c ∉ l := by
  rw [show l.contains c = l.elem c from rfl, List.elem_eq_mem]
  simp

theorem sanitizeUrl_canonical (idc : List Char)
    (hclean : ∀ c ∈ idc, isUnsafeUrlChar c = false) :
    sanitizeUrl ("https://modrinth.com/project/" ++ String.mk idc)
      = "https://modrinth.com/project/".toList ++ idc := by
  rw [sanitizeUrl]
  rw [show ("https://modrinth.com/project/" ++ String.mk idc).toList
      = 'h' :: ("ttps://modrinth.com/project/".toList ++ idc) from rfl]
  rw [List.dropWhile_cons]
  rw [if_neg (by decide)]
  rw [show 'h' :: ("ttps://modrinth.com/project/".toList ++ idc)
      = "https://modrinth.com/project/".toList ++ idc from rfl]
  rw [List.filter_append]
  rw [show "https://modrinth.com/project/".toList.filter (fun c => !isUnsafeUrlChar c)
      = "https://modrinth.com/project/".toList from by decide]
  rw [List.filter_eq_self.mpr (fun c hc => by simp [hclean c hc])]

theorem urlparse_canonical (idc : List Char)
    (hclean : ∀ c ∈ idc, c ≠ '/' ∧ c ≠ '?' ∧ c ≠ '#' ∧ isUnsafeUrlChar c = false)
    (hsemi : idc.contains ';' = false) :
    urlparse ("https://modrinth.com/project/" ++ String.mk idc)
      = { scheme := "https", netloc := "modrinth.com",
          path := String.mk ("/project/".toList ++ idc) } := by
  have h1 := sanitizeUrl_canonical idc (fun c hc => (hclean c hc).2.2.2)
  have h2 : splitScheme ("https://modrinth.com/project/".toList ++ idc)
      = ("https".toList, "//modrinth.com/project/".toList ++ idc) := rfl
  have h3 : splitNetloc ("//modrinth.com/project/".toList ++ idc)
      = ("modrinth.com".toList, "/project/".toList ++ idc) := rfl
  have hpath0 : takeUntilChars ['#', '?'] ("/project/".toList ++ idc)
      = "/project/".toList ++ idc := by
    rw [takeUntilChars_append_left _ _ _ (by decide)]
    rw [takeUntilChars_eq_self _ _ (fun c hc => by
      rw [contains_eq_false_iff]
      intro hm
      rcases List.mem_cons.mp hm with heq | hm2
      · exact (hclean c hc).2.2.1 heq
      · rcases List.mem_cons.mp hm2 with heq | hm3
        · exact (hclean c hc).2.1 heq
        · exact absurd hm3 (List.not_mem_nil c))]
  have hnosemi : (("/project/".toList ++ idc).contains ';') = false := by
    rw [contains_eq_false_iff]
    intro hm
    rcases List.mem_append.mp hm with hm2 | hm2
    · exact absurd hm2 (by decide)
    · exact absurd hm2 ((contains_eq_false_iff idc ';').mp hsemi)
  have h4 : parsePath "https".toList ("/project/".toList ++ idc)
      = "/project/".toList ++ idc := by
    simp only [parsePath]
    rw [hpath0]
    rw [if_neg (by
      rintro ⟨_, hc⟩
      rw [hnosemi] at hc
      simp at hc)]
  simp only [urlparse]
  rw [h1, h2]
  simp only
  rw [h3]
  simp only
  rw [h4]
  rfl

theorem normalize_canonical (idc : List Char) (hne : idc ≠ [])
    (hclean : ∀ c ∈ idc, c ≠ '/' ∧ c ≠ '?' ∧ c ≠ '#' ∧ isUnsafeUrlChar c = false)
    (hsemi : idc.contains ';' = false) :
    normalize_project_url ("https://modrinth.com/project/" ++ String.mk idc)
      = .ok ("https://modrinth.com/project/" ++ String.mk idc) := by
  have hpp : pathParts (String.mk ("/project/".toList ++ idc))
      = ["project".toList, idc] := by
    rw [pathParts]
    rw [show (String.mk ("/project/".toList ++ idc)).toList
        = '/' :: ("project".toList ++ '/' :: idc) from rfl]
    rw [splitOnSlash_slash_cons, splitOnSlash_append_slash _ _ (by decide),
      splitOnSlash_no_slash idc (fun c hc => (hclean c hc).1)]
    simp [hne]
  simp only [normalize_project_url]
  rw [urlparse_canonical idc hclean hsemi]
  simp only
  rw [hpp]
  rfl

/-- C5 counterexample: normalization is not idempotent.  The URL
`https://modrinth.com/project/x;1/` (trailing slash protecting the
semicolon from the params split) normalizes successfully to
`https://modrinth.com/project/x;1`, but normalizing that result strips
`;1` as URL parameters and yields `https://modrinth.com/project/x`. -/
theorem normalize_project_url_counterexample :
    normalize_project_url "https://modrinth.com/project/x;1/"
        = .ok "https://modrinth.com/project/x;1" ∧
      normalize_project_url "https://modrinth.com/project/x;1"
        = .ok "https://modrinth.com/project/x" ∧
      normalize_project_url "https://modrinth.com/project/x;1"
        ≠ .ok "https://modrinth.com/project/x;1" := by
  refine ⟨rfl, rfl, ?_⟩
  intro h
  rw [show normalize_project_url "https://modrinth.com/project/x;1"
      = .ok "https://modrinth.com/project/x" from rfl] at h
  exact absurd ((Except.ok.injEq _ _).mp h) (by decide)

/-- C5 (amended): a successful normalization returns the canonical form
`https://modrinth.com/project/<id>` where `<id>` is the second non-empty
segment of the parsed path, and normalization is idempotent whenever that
id contains no semicolon (a trailing-slash-protected `;suffix` survives
the first parse but is stripped as URL parameters on re-parse);
normalization fails whenever the scheme is not http/https, the host is
not a recognized registry host (including the `www.` variant), or the
parsed path does not decompose into exactly two non-empty segments with
first segment `project`. -/
theorem normalize_project_url_spec :
    (∀ u v, normalize_project_url u = .ok v →
       ∃ idc, pathParts (urlparse u).path = ["project".toList, idc] ∧
         v = "https://modrinth.com/project/" ++ String.mk idc ∧
         (idc.contains ';' = false → normalize_project_url v = .ok v)) ∧
    (∀ u, ((¬ ((urlparse u).scheme = "http" ∨ (urlparse u).scheme = "https")) ∨
           (¬ ((urlparse u).netloc = "modrinth.com" ∨
               (urlparse u).netloc = "www.modrinth.com")) ∨
           (∀ idc, pathParts (urlparse u).path ≠ ["project".toList, idc])) →
       ∃ e, normalize_project_url u = .error e) := by
  constructor
  · intro u v h
    simp only [normalize_project_url] at h
    by_cases h1 : ¬ ((urlparse u).scheme = "http" ∨ (urlparse u).scheme = "https")
    · rw [if_pos h1] at h; exact absurd h (by simp)
    · rw [if_neg h1] at h
      by_cases h2 : ¬ ((urlparse u).netloc = "modrinth.com" ∨
          (urlparse u).netloc = "www.modrinth.com")
      · rw [if_pos h2] at h; exact absurd h (by simp)
      · rw [if_neg h2] at h
        cases hpp : pathParts (urlparse u).path with
        | nil => rw [hpp] at h; exact absurd h (by simp)
        | cons p0 ps =>
          cases ps with
          | nil => rw [hpp] at h; exact absurd h (by simp)
          | cons p1 ps2 =>
            cases ps2 with
            | cons p2 ps3 => rw [hpp] at h; exact absurd h (by simp)
            | nil =>
              rw [hpp] at h
              simp only at h
              split_ifs at h with hp0
              subst hp0
              have hv : v = "https://modrinth.com/project/" ++ String.mk p1 := by
                have h5 := (Except.ok.injEq _ _).mp h
                exact h5.symm
              refine ⟨p1, rfl, hv, ?_⟩
              intro hsemi
              have hp1mem : p1 ∈ pathParts (urlparse u).path := by
                rw [hpp]
                exact List.mem_cons_of_mem _ (List.mem_cons_self _ _)
              rw [pathParts] at hp1mem
              obtain ⟨hp1split, hp1ne⟩ := List.mem_filter.mp hp1mem
              obtain ⟨hnoslash, hsub⟩ := mem_splitOnSlash _ p1 hp1split
              have hclean : ∀ c ∈ p1,
                  c ≠ '/' ∧ c ≠ '?' ∧ c ≠ '#' ∧ isUnsafeUrlChar c = false := by
                intro c hc
                obtain ⟨hq, hh, hu⟩ := urlparse_path_clean u c (hsub c hc)
                refine ⟨?_, hq, hh, hu⟩
                rintro rfl
                exact hnoslash hc
              rw [hv]
              exact normalize_canonical p1 (by simpa using hp1ne) hclean hsemi
  · intro u hbad
    simp only [normalize_project_url]
    by_cases h1 : ¬ ((urlparse u).scheme = "http" ∨ (urlparse u).scheme = "https")
    · exact ⟨_, by rw [if_pos h1]⟩
    · rw [if_neg h1]
      by_cases h2 : ¬ ((urlparse u).netloc = "modrinth.com" ∨
          (urlparse u).netloc = "www.modrinth.com")
      · exact ⟨_, by rw [if_pos h2]⟩
      · rw [if_neg h2]
        rcases hbad with hb | hb | hb
        · exact absurd hb h1
        · exact absurd hb h2
        · cases hpp : pathParts (urlparse u).path with
          | nil => exact ⟨_, rfl⟩
          | cons p0 ps =>
            cases ps with
            | nil => exact ⟨_, rfl⟩
            | cons p1 ps2 =>
              cases ps2 with
              | cons p2 ps3 => exact ⟨_, rfl⟩
              | nil =>
                have hp0 : ¬ (p0 = "project".toList) := by
                  intro heq
                  exact hb p1 (by rw [hpp, heq])
                refine ⟨"Invalid Modrinth project URL path: " ++ u, ?_⟩
                simp only
                rw [if_neg hp0]

/-- Witness for C5 at a concrete input: a `www.`-host URL normalizes to
the canonical form, which re-normalizes to itself. -/
theorem normalize_project_url_spec_witness :
    ∃ idc, pathParts (urlparse "https://www.modrinth.com/project/Abc").path
        = ["project".toList, idc] ∧
      ("https://modrinth.com/project/Abc" : String)
        = "https://modrinth.com/project/" ++ String.mk idc ∧
      (idc.contains ';' = false →
        normalize_project_url "https://modrinth.com/project/Abc"
          = .ok "https://modrinth.com/project/Abc") := by
  exact normalize_project_url_spec.1 "https://www.modrinth.com/project/Abc"
    "https://modrinth.com/project/Abc" rfl

end Modpack
